import Mathlib

/-!
Verification of the matching core of the Freelancing-AI service (`src/main.py`).

The Python source is modelled shallowly:
* Python machine-independent `int` values are `ℕ`/`ℤ`; the 32-bit words inside
  SHA-256 are `ℕ` truncated explicitly with `% 2^32`.
* Python floats are modelled as real numbers (`ℝ`); embedding components, which
  are always exact fractions `(byte/255)*2 - 1` in the fallback path, are kept
  as rationals (`ℚ`) so that they stay computable.
* `round(x, 4)` is modelled as `round (x * 10000) / 10000`; none of the
  properties below depend on the tie-breaking convention of `round`.
* `list.sort` in Python is a stable sort; it is modelled by
  `List.insertionSort`, which is stable in the same sense.
* `hashlib.sha256` is the standard SHA-256 function, implemented here from the
  FIPS 180-4 specification over byte lists.
* The sentence-transformers model branch of `EmbeddingService` is an optional
  external dependency that is absent in the modelled environment, so `encode`
  uses the deterministic fallback embedding, as in the source's ImportError
  path.
-/

namespace FAI

/-! ### SHA-256 (FIPS 180-4), over lists of byte values -/

/-- Truncation to a 32-bit word. -/
def w32 (n : ℕ) : ℕ := n % 4294967296

/-- Right rotation of a 32-bit word. -/
def rotr32 (x n : ℕ) : ℕ := w32 ((x >>> n) ||| (x <<< (32 - n)))

def shaCh (e f g : ℕ) : ℕ := (e &&& f) ^^^ ((e ^^^ 4294967295) &&& g)

def shaMaj (a b c : ℕ) : ℕ := (a &&& b) ^^^ (a &&& c) ^^^ (b &&& c)

def bigSig0 (x : ℕ) : ℕ := rotr32 x 2 ^^^ rotr32 x 13 ^^^ rotr32 x 22

def bigSig1 (x : ℕ) : ℕ := rotr32 x 6 ^^^ rotr32 x 11 ^^^ rotr32 x 25

def smallSig0 (x : ℕ) : ℕ := rotr32 x 7 ^^^ rotr32 x 18 ^^^ (x >>> 3)

def smallSig1 (x : ℕ) : ℕ := rotr32 x 17 ^^^ rotr32 x 19 ^^^ (x >>> 10)

/-- SHA-256 round constants (decimal values of the FIPS 180-4 table). -/
def shaK : List ℕ :=
  [1116352408, 1899447441, 3049323471, 3921009573, 961987163,
   1508970993, 2453635748, 2870763221, 3624381080, 310598401,
   607225278, 1426881987, 1925078388, 2162078206, 2614888103,
   3248222580, 3835390401, 4022224774, 264347078, 604807628,
   770255983, 1249150122, 1555081692, 1996064986, 2554220882,
   2821834349, 2952996808, 3210313671, 3336571891, 3584528711,
   113926993, 338241895, 666307205, 773529912, 1294757372,
   1396182291, 1695183700, 1986661051, 2177026350, 2456956037,
   2730485921, 2820302411, 3259730800, 3345764771, 3516065817,
   3600352804, 4094571909, 275423344, 430227734, 506948616,
   659060556, 883997877, 958139571, 1322822218, 1537002063,
   1747873779, 1955562222, 2024104815, 2227730452, 2361852424,
   2428436474, 2756734187, 3204031479, 3329325298]

/-- The eight 32-bit words of the SHA-256 hash state. -/
structure Sha8 where
  a : ℕ
  b : ℕ
  c : ℕ
  d : ℕ
  e : ℕ
  f : ℕ
  g : ℕ
  h : ℕ
deriving DecidableEq

/-- SHA-256 initial hash value (decimal values of the FIPS 180-4 table). -/
def shaInit : Sha8 :=
  ⟨1779033703, 3144134277, 1013904242, 2773480762,
   1359893119, 2600822924, 528734635, 1541459225⟩

/-- Message-schedule expansion of one 16-word block into 64 words. -/
def shaSchedule (block : List ℕ) : List ℕ :=
  (List.range 48).foldl
    (fun w _ =>
      w ++ [w32 (smallSig1 (w.getD (w.length - 2) 0) + w.getD (w.length - 7) 0 +
        smallSig0 (w.getD (w.length - 15) 0) + w.getD (w.length - 16) 0)])
    block

/-- One SHA-256 compression round; the pair carries `(wordOfSchedule, roundConstant)`. -/
def shaStep (s : Sha8) (wk : ℕ × ℕ) : Sha8 :=
  let t1 := w32 (s.h + bigSig1 s.e + shaCh s.e s.f s.g + wk.2 + wk.1)
  let t2 := w32 (bigSig0 s.a + shaMaj s.a s.b s.c)
  ⟨w32 (t1 + t2), s.a, s.b, s.c, w32 (s.d + t1), s.e, s.f, s.g⟩

/-- SHA-256 compression function applied to one 16-word block. -/
def shaCompress (s : Sha8) (block : List ℕ) : Sha8 :=
  let t := ((shaSchedule block).zip shaK).foldl shaStep s
  ⟨w32 (s.a + t.a), w32 (s.b + t.b), w32 (s.c + t.c), w32 (s.d + t.d),
   w32 (s.e + t.e), w32 (s.f + t.f), w32 (s.g + t.g), w32 (s.h + t.h)⟩

/-- Big-endian 8-byte encoding of a length in bits. -/
def lenBE8 (n : ℕ) : List ℕ :=
  [n / 72057594037927936 % 256, n / 281474976710656 % 256, n / 1099511627776 % 256,
   n / 4294967296 % 256, n / 16777216 % 256, n / 65536 % 256, n / 256 % 256, n % 256]

/-- SHA-256 padding: append `0x80`, zero bytes, and the 64-bit message length. -/
def shaPad (msg : List ℕ) : List ℕ :=
  msg ++ 128 :: List.replicate ((64 - (msg.length + 9) % 64) % 64) 0 ++ lenBE8 (8 * msg.length)

/-- Big-endian grouping of bytes into 32-bit words. -/
def bytesToWords (bytes : List ℕ) : List ℕ :=
  (List.range (bytes.length / 4)).map fun i =>
    ((bytes.getD (4 * i) 0 * 256 + bytes.getD (4 * i + 1) 0) * 256 +
      bytes.getD (4 * i + 2) 0) * 256 + bytes.getD (4 * i + 3) 0

/-- Grouping of a word list into 16-word blocks. -/
def wordsToBlocks (ws : List ℕ) : List (List ℕ) :=
  (List.range (ws.length / 16)).map fun j => (List.range 16).map fun t => ws.getD (16 * j + t) 0

/-- Big-endian byte decomposition of a 32-bit word. -/
def wordBytes (w : ℕ) : List ℕ := [w / 16777216 % 256, w / 65536 % 256, w / 256 % 256, w % 256]

/-- SHA-256 digest (32 bytes) of a byte-list message. -/
def sha256 (msg : List ℕ) : List ℕ :=
  let s := (wordsToBlocks (bytesToWords (shaPad msg))).foldl shaCompress shaInit
  wordBytes s.a ++ wordBytes s.b ++ wordBytes s.c ++ wordBytes s.d ++
    wordBytes s.e ++ wordBytes s.f ++ wordBytes s.g ++ wordBytes s.h

/-- UTF-8 encoding of a single character. -/
def utf8Char (c : Char) : List ℕ :=
  let n := c.toNat
  if n < 128 then [n]
  else if n < 2048 then [192 ||| (n >>> 6), 128 ||| (n &&& 63)]
  else if n < 65536 then [224 ||| (n >>> 12), 128 ||| ((n >>> 6) &&& 63), 128 ||| (n &&& 63)]
  else [240 ||| (n >>> 18), 128 ||| ((n >>> 12) &&& 63), 128 ||| ((n >>> 6) &&& 63),
    128 ||| (n &&& 63)]

/-- UTF-8 encoding of a string as a byte list (`text.encode("utf-8")`). -/
def utf8Bytes (s : String) : List ℕ := s.toList.flatMap utf8Char

/-! ### Python string helpers used by `main.py`

`str.split()`, `str.split(",")`, `str.strip()`, `str.lower()` and `str.isdigit()`
are modelled over code-point lists; for the ASCII texts handled by the service
these agree with CPython's unicode-aware versions.
-/

/-- Python whitespace for `str.split()` / `str.strip()`. -/
def isPyWS (c : Char) : Bool :=
  c == ' ' || c == '\t' || c == '\n' || c == '\r' || c == '\x0b' || c == '\x0c'

/-- Python `str.lower()`. -/
def pyLower (s : String) : String := String.mk (s.toList.map Char.toLower)

/-- Python `str.strip()`. -/
def pyStrip (s : String) : String :=
  String.mk (((s.toList.dropWhile isPyWS).reverse.dropWhile isPyWS).reverse)

/-- Accumulator loop of `str.split()` (whitespace runs dropped). -/
def splitWSAux : List Char → List Char → List String
  | [], acc => if acc.isEmpty then [] else [String.mk acc.reverse]
  | c :: cs, acc =>
    if isPyWS c then
      (if acc.isEmpty then splitWSAux cs [] else String.mk acc.reverse :: splitWSAux cs [])
    else splitWSAux cs (c :: acc)

/-- Python `str.split()`: whitespace-delimited tokens, empties dropped. -/
def pySplitWS (s : String) : List String := splitWSAux s.toList []

/-- Accumulator loop of `str.split(",")`. -/
def splitCommaAux : List Char → List Char → List String
  | [], acc => [String.mk acc.reverse]
  | c :: cs, acc =>
    if c == ',' then String.mk acc.reverse :: splitCommaAux cs []
    else splitCommaAux cs (c :: acc)

/-- Python `str.split(",")`. -/
def pySplitComma (s : String) : List String := splitCommaAux s.toList []

/-- Python `str.isdigit()`: nonempty and all digits. -/
def pyIsDigit (s : String) : Bool := !s.isEmpty && s.toList.all Char.isDigit

/-- Python `int(token)` for an all-digits token. -/
def digitsToNat (s : String) : ℕ := s.toList.foldl (fun n c => 10 * n + (c.toNat - 48)) 0

/-! ### Attribute extractor (`_extract_experience_years`, `_extract_skills`) -/

/-- The `for token in resume_text_lower.split()` loop of `_extract_experience_years`. -/
def extractExpLoop : List String → ℕ
  | [] => 0
  | t :: ts =>
    if pyIsDigit t then
      (let v := digitsToNat t
       if 0 < v ∧ v < 51 then v else extractExpLoop ts)
    else extractExpLoop ts

/-- The function `_extract_experience_years(resume_text_lower)`. -/
def extract_experience_years (resume_text_lower : String) : ℕ :=
  extractExpLoop (pySplitWS resume_text_lower)

/-- The fixed skill vocabulary of `_extract_skills`. -/
def common_skills : List String :=
  ["python", "fastapi", "django", "flask", "react", "next.js", "node", "aws",
   "postgresql", "docker", "kubernetes"]

/-- Whether `needle` starts at the head of `hay`. -/
def listStart : List Char → List Char → Bool
  | [], _ => true
  | _ :: _, [] => false
  | a :: as, b :: bs => a == b && listStart as bs

/-- Whether `needle` occurs contiguously anywhere in `hay`. -/
def hasSub (needle : List Char) : List Char → Bool
  | [] => needle.isEmpty
  | c :: cs => listStart needle (c :: cs) || hasSub needle cs

/-- Python `skill in resume_text_lower`: substring containment over code points. -/
def skillMentioned (skill text : String) : Bool := hasSub skill.toList text.toList

/-- Code-point lexicographic comparison of character lists, as Python compares
strings; agrees with the string order (see `lexLe_iff_not_lt` below). -/
def lexLe : List Char → List Char → Bool
  | [], _ => true
  | _ :: _, [] => false
  | a :: as, b :: bs => if a < b then true else if b < a then false else lexLe as bs

/-- Python string comparison `a <= b`. -/
def strLeB (a b : String) : Bool := lexLe a.toList b.toList

/-- The function `_extract_skills(resume_text_lower)`: matching vocabulary entries, sorted ascending. -/
def extract_skills (resume_text_lower : String) : List String :=
  List.insertionSort (fun a b => strLeB a b = true)
    (common_skills.filter fun s => skillMentioned s resume_text_lower)

/-! ### Embedding provider -/

/-- The function `_fallback_embedding(text, dim)`. -/
def fallback_embedding (text : String) (dim : ℕ) : List ℚ :=
  let digest := sha256 (utf8Bytes text)
  (List.range dim).map fun i => ((digest.getD (i % digest.length) 0 : ℚ) / 255) * 2 - 1

/-- The method `EmbeddingService.encode` in the environment without sentence-transformers:
the model is `None`, so the deterministic fallback embedding (dim 32) is used. -/
def encode (texts : List String) : List (List ℚ) := texts.map fun t => fallback_embedding t 32

/-! ### Cosine similarity and rounding -/

/-- Python `sum(x * y for x, y in zip(a, b))`. -/
def dotQ (a b : List ℚ) : ℚ := ((a.zip b).map fun p => p.1 * p.2).sum

/-- Python `sum(x * x for x in a)`. -/
def sumSq (a : List ℚ) : ℚ := (a.map fun x => x * x).sum

/-- Python `sum(x * x for x in a) ** 0.5`. -/
noncomputable def magnitude (a : List ℚ) : ℝ := Real.sqrt ((sumSq a : ℚ) : ℝ)

open Classical in
/-- The function `cosine_similarity(a, b)`. -/
noncomputable def cosine_similarity (a b : List ℚ) : ℝ :=
  if magnitude a = 0 ∨ magnitude b = 0 then 0
  else (dotQ a b : ℝ) / (magnitude a * magnitude b)

/-- Python `round(x, 4)`. -/
noncomputable def round4 (x : ℝ) : ℝ := (round (x * 10000) : ℤ) / 10000

/-! ### Candidate store (`InMemoryCollection`) and application state -/

/-- One stored row of `InMemoryCollection._rows`. -/
structure Row where
  id : String
  document : String
  embedding : List ℚ
deriving DecidableEq

/-- One scored row returned by `InMemoryCollection.query`. -/
structure ScoredRow where
  id : String
  document : String
  score : ℝ

/-- The method `InMemoryCollection.add(documents, embeddings, ids)`. -/
def collAdd (rows : List Row) (documents : List String) (embeddings : List (List ℚ))
    (ids : List String) : List Row :=
  rows ++ (documents.zip (embeddings.zip ids)).map fun p => ⟨p.2.2, p.1, p.2.1⟩

open Classical in
/-- The method `InMemoryCollection.query(query_embedding, n_results)`: score every row,
stable-sort descending by score, truncate. -/
noncomputable def collQuery (rows : List Row) (query_embedding : List ℚ) (n_results : ℕ) :
    List ScoredRow :=
  let scored := rows.map fun row =>
    ScoredRow.mk row.id row.document (round4 (cosine_similarity query_embedding row.embedding))
  (List.insertionSort (fun x y : ScoredRow => y.score ≤ x.score) scored).take n_results

/-- One value of the `resume_metadata` table. -/
structure CandidateMeta where
  name : String
  email : String
  headline : String
  bio : String
  experience_years : ℤ
  skills : List String
deriving DecidableEq

/-- The process-wide mutable state: `resume_collection` and `resume_metadata`.
New metadata entries are prepended, matching dict insert/overwrite on lookup. -/
structure AppState where
  resume_collection : List Row
  resume_metadata : List (String × CandidateMeta)
deriving DecidableEq

/-- Error conditions surfaced by the HTTP layer (`HTTPException` / pydantic). -/
inductive ApiError where
  | emptyInput
  | invalidInput
  | noCandidates
deriving DecidableEq

/-- The `JobPost` request body (pydantic validation is applied in `post_job` below). -/
structure JobPost where
  description : String
  required_skills : List String
  min_experience_years : ℤ
deriving DecidableEq

/-- One entry of the `top_matches` response of `post_job`. -/
structure MatchEntry where
  resume_id : String
  name : String
  headline : String
  semantic_score : ℝ
  skill_score : ℝ
  experience_score : ℝ
  final_score : ℝ

/-! ### Endpoints -/

/-- Python `sorted(set(xs) | set(ys))` for string lists. -/
def sortedUnion (xs ys : List String) : List String :=
  List.insertionSort (fun a b => strLeB a b = true) ((xs ++ ys).dedup)

/-- Endpoint `/freelancers/register` (`register_freelancer`): the HTTP response object is
not modelled, only the state update; the fresh uuid-based id is a parameter. -/
def register_freelancer (st : AppState) (resume_id : String) (name email headline : String)
    (experience_years : ℤ) (skills bio : String) (content : String) : Except ApiError AppState :=
  if content.isEmpty then .error .emptyInput
  else
    let text := pyStrip content
    if text.isEmpty then .error .emptyInput
    else
      let embedding := (encode [text]).headD []
      let rows := collAdd st.resume_collection [text] [embedding] [resume_id]
      let typed_skills :=
        ((pySplitComma skills).filter fun sk => !(pyStrip sk).isEmpty).map fun sk =>
          pyLower (pyStrip sk)
      let merged_skills := sortedUnion typed_skills (extract_skills (pyLower text))
      .ok ⟨rows,
        (resume_id,
          ⟨name, email, headline, bio,
            max experience_years (extract_experience_years (pyLower text) : ℤ),
            merged_skills⟩) :: st.resume_metadata⟩

/-- Endpoint `/upload-resume` (`upload_resume`). -/
def upload_resume (st : AppState) (resume_id : String) (filename : String) (content : String) :
    Except ApiError AppState :=
  if content.isEmpty then .error .emptyInput
  else
    let text := pyStrip content
    if text.isEmpty then .error .emptyInput
    else
      let embedding := (encode [text]).headD []
      let rows := collAdd st.resume_collection [text] [embedding] [resume_id]
      let lowered := pyLower text
      .ok ⟨rows,
        (resume_id,
          ⟨filename, "", "Freelancer", "", (extract_experience_years lowered : ℤ),
            extract_skills lowered⟩) :: st.resume_metadata⟩

open Classical in
/-- Endpoint `/post-job` (`post_job`), with the pydantic `min_length=10` validation of
`JobPost.description` applied first, as it is on the wire. -/
noncomputable def post_job (st : AppState) (job : JobPost) : Except ApiError (List MatchEntry) :=
  if job.description.length < 10 then .error .invalidInput
  else if st.resume_metadata.isEmpty then .error .noCandidates
  else
    let job_embedding := (encode [job.description]).headD []
    let semantic_matches := collQuery st.resume_collection job_embedding 10
    let ranked := semantic_matches.map fun result =>
      let candidate := st.resume_metadata.lookup result.id
      let cExp := (candidate.map CandidateMeta.experience_years).getD 0
      let experience_score : ℝ :=
        min ((cExp : ℝ) / ((max job.min_experience_years 1 : ℤ) : ℝ)) 1
      let required := (job.required_skills.map pyLower).toFinset
      let available := ((candidate.map CandidateMeta.skills).getD []).toFinset
      let skill_score : ℝ := ((required ∩ available).card : ℝ) / ((max required.card 1 : ℕ) : ℝ)
      let final_score := round4 (0.5 * skill_score + 0.3 * experience_score + 0.2 * result.score)
      MatchEntry.mk result.id ((candidate.map CandidateMeta.name).getD result.id)
        ((candidate.map CandidateMeta.headline).getD "Freelancer") result.score
        (round4 skill_score) (round4 experience_score) final_score
    .ok ((List.insertionSort (fun x y : MatchEntry => y.final_score ≤ x.final_score) ranked).take 5)

/-! ### Derived notions and concrete instances used by the verification -/

/-- The value of one fallback-embedding component as a function of the digest byte. -/
def embComp (b : ℕ) : ℚ := ((b : ℚ) / 255) * 2 - 1

/-- Integer numerator `2*b - 255` of a fallback-embedding component (over denominator 255). -/
def byteScore (b : ℕ) : ℤ := 2 * b - 255

/-- Integer-level dot product of two byte lists through `byteScore`; equals
`65025` times the rational dot product of the corresponding embeddings. -/
def intDot (xs ys : List ℕ) : ℤ := ((xs.zip ys).map fun p => byteScore p.1 * byteScore p.2).sum

/-- The empty starting state of the service process. -/
def initialState : AppState := ⟨[], []⟩

/-- A resume text whose fallback embedding points away from `descCX`'s. -/
def textA : String := "Translator of classic novels"

/-- A job description whose fallback embedding has negative cosine similarity
with the embedding of `textA`. -/
def descCX : String := "Looking for cloud engineer"

/-- Job used to exhibit a negative semantic score. -/
def jobCX : JobPost := ⟨descCX, [], 0⟩

/-- The state reached by uploading `textA` as a resume into the empty state. -/
def stCX : AppState :=
  ⟨[⟨"resume-1", textA, fallback_embedding textA 32⟩],
   [("resume-1", ⟨"a.txt", "", "Freelancer", "", 0, extract_skills (pyLower textA)⟩)]⟩

/-- Fallback entry value for reading off match results. -/
noncomputable def mDefault : MatchEntry := ⟨"", "", "", 0, 0, 0, 0⟩

/-- The match list returned for `jobCX` against `stCX`. -/
noncomputable def cxMatches : List MatchEntry := (post_job stCX jobCX).toOption.getD []

/-- A one-candidate state whose stored embedding is the empty vector. -/
def stW : AppState := ⟨[⟨"r1", "", []⟩], [("r1", ⟨"w", "", "F", "", 3, []⟩)]⟩

/-- A minimal valid job (description of length exactly 10, no required skills). -/
def jobW : JobPost := ⟨"0123456789", [], 0⟩

/-- The single match entry produced for `jobW` against `stW`. -/
noncomputable def entryW : MatchEntry := ⟨"r1", "w", "F", 0, 0, 1, 0.3⟩

/-- The job of end-to-end scenario 2 of the specification. -/
def jobA : JobPost := ⟨"Need backend engineer", ["python"], 2⟩

/-! ## Lemma infrastructure -/

/-- Comparator `lexLe` decides the negation of the lexicographic strict order. -/
theorem lexLe_iff : ∀ as bs : List Char, lexLe as bs = true ↔ ¬List.Lex (· < ·) bs as
  | [], bs => ⟨fun _ h => (nomatch h), fun _ => rfl⟩
  | a :: as, [] => ⟨fun h => by simp [lexLe] at h, fun h => absurd List.Lex.nil h⟩
  | a :: as, b :: bs => by
    by_cases hab : a < b
    · simp only [lexLe, if_pos hab]
      refine iff_of_true trivial fun h => ?_
      cases h with
      | cons h3 => exact lt_irrefl a hab
      | rel h' => exact lt_asymm hab h'
    · by_cases hba : b < a
      · simp only [lexLe, if_neg hab, if_pos hba]
        exact iff_of_false (by simp) fun h => h (List.Lex.rel hba)
      · have heq : a = b := le_antisymm (not_lt.mp hba) (not_lt.mp hab)
        subst heq
        simp only [lexLe, if_neg hab, if_neg hba]
        rw [lexLe_iff as bs]
        constructor
        · intro h hlt
          cases hlt with
          | cons h3 => exact h h3
          | rel h' => exact lt_irrefl a h'
        · intro h h3
          exact h (List.Lex.cons h3)

/-- Comparator `strLeB` agrees with the string order. -/
theorem strLeB_iff_le (a b : String) : strLeB a b = true ↔ a ≤ b := by
  rw [String.le_iff_toList_le, ← not_lt]
  exact lexLe_iff a.toList b.toList

theorem strLeB_total (a b : String) : strLeB a b = true ∨ strLeB b a = true := by
  rw [strLeB_iff_le, strLeB_iff_le]
  exact le_total a b

theorem strLeB_trans {a b c : String} (h1 : strLeB a b = true) (h2 : strLeB b c = true) :
    strLeB a c = true := by
  rw [strLeB_iff_le] at h1 h2 ⊢
  exact le_trans h1 h2

/-- Predicate `listStart` detects the heads of a list. -/
theorem listStart_iff : ∀ n h : List Char, listStart n h = true ↔ ∃ r, h = n ++ r
  | [], h => by
    constructor
    · intro _
      exact ⟨h, rfl⟩
    · intro _
      rfl
  | a :: as, [] => by
    refine iff_of_false (by simp [listStart]) ?_
    rintro ⟨r, hr⟩
    simp at hr
  | a :: as, b :: bs => by
    simp only [listStart, Bool.and_eq_true, beq_iff_eq, listStart_iff as bs, List.cons_append]
    constructor
    · rintro ⟨rfl, r, rfl⟩
      exact ⟨r, rfl⟩
    · rintro ⟨r, hr⟩
      obtain ⟨h1, h2⟩ := List.cons.inj hr
      exact ⟨h1.symm, r, h2⟩

/-- Predicate `hasSub` detects contiguous sublists. -/
theorem hasSub_iff (n : List Char) : ∀ h : List Char, hasSub n h = true ↔ ∃ l r, h = l ++ n ++ r
  | [] => by
    simp only [hasSub, List.isEmpty_iff]
    constructor
    · rintro rfl
      exact ⟨[], [], rfl⟩
    · rintro ⟨l, r, hr⟩
      rcases List.append_eq_nil.mp (List.append_eq_nil.mp hr.symm).1 with ⟨-, h2⟩
      exact h2
  | c :: cs => by
    simp only [hasSub, Bool.or_eq_true, listStart_iff, hasSub_iff n cs]
    constructor
    · rintro (⟨r, hr⟩ | ⟨l, r, hr⟩)
      · exact ⟨[], r, by simpa using hr⟩
      · exact ⟨c :: l, r, by simp [hr]⟩
    · rintro ⟨l, r, hr⟩
      cases l with
      | nil => exact Or.inl ⟨r, by simpa using hr⟩
      | cons x xs =>
        obtain ⟨h1, h2⟩ := List.cons.inj (by simpa using hr)
        exact Or.inr ⟨xs, r, by rw [List.append_assoc]; exact h2⟩

/-- Filtering a class of mutually related elements commutes with `orderedInsert`. -/
theorem orderedInsert_filter {α : Type} (r : α → α → Prop) [DecidableRel r] (p : α → Bool)
    (hp : ∀ x y, p x = true → p y = true → r x y) (x : α) :
    ∀ l : List α, (List.orderedInsert r x l).filter p =
      if p x then x :: l.filter p else l.filter p
  | [] => by
    cases hpx : p x <;> simp [List.orderedInsert, List.filter, hpx]
  | y :: l => by
    by_cases hxy : r x y
    · rw [List.orderedInsert, if_pos hxy, List.filter_cons]
    · rw [List.orderedInsert, if_neg hxy, List.filter_cons,
        orderedInsert_filter r p hp x l]
      by_cases hpy : p y = true
      · by_cases hpx : p x = true
        · exact absurd (hp x y hpx hpy) hxy
        · simp [hpy, hpx, List.filter_cons]
      · by_cases hpx : p x = true <;> simp [hpy, hpx, List.filter_cons]

/-- Stability of insertion sort, as preservation of every class of mutually
related elements. -/
theorem insertionSort_filter {α : Type} (r : α → α → Prop) [DecidableRel r] (p : α → Bool)
    (hp : ∀ x y, p x = true → p y = true → r x y) :
    ∀ l : List α, (List.insertionSort r l).filter p = l.filter p
  | [] => rfl
  | x :: l => by
    rw [List.insertionSort, orderedInsert_filter r p hp, insertionSort_filter r p hp l,
      List.filter_cons]

/-- Zipping ignores the tail of the longer list. -/
theorem zip_append_of_le : ∀ (a b c : List ℚ), a.length ≤ b.length → a.zip (b ++ c) = a.zip b
  | [], _, _, _ => by simp
  | x :: xs, [], c, h => by simp at h
  | x :: xs, y :: ys, c, h => by
    simp only [List.cons_append, List.zip_cons_cons]
    rw [zip_append_of_le xs ys c (by simpa using h)]

/-- A successful lookup comes from a stored pair. -/
theorem lookup_mem : ∀ (l : List (String × CandidateMeta)) (k : String) (c : CandidateMeta),
    l.lookup k = some c → ∃ k', (k', c) ∈ l
  | [], k, c, h => by simp [List.lookup] at h
  | (k₁, c₁) :: l, k, c, h => by
    cases hk : k == k₁
    · simp only [List.lookup, hk] at h
      obtain ⟨k', hk'⟩ := lookup_mem l k c h
      exact ⟨k', List.mem_cons_of_mem _ hk'⟩
    · simp only [List.lookup, hk, Option.some.injEq] at h
      exact ⟨k₁, by rw [← h]; exact List.mem_cons_self _ _⟩

/-- The digest always has 32 bytes. -/
theorem sha256_length (msg : List ℕ) : (sha256 msg).length = 32 := rfl

theorem wordBytes_mem_lt (w : ℕ) : ∀ b ∈ wordBytes w, b < 256 := by
  intro b hb
  simp only [wordBytes, List.mem_cons, List.not_mem_nil, or_false] at hb
  rcases hb with rfl | rfl | rfl | rfl <;> exact Nat.mod_lt _ (by norm_num)

/-- Every digest byte is below 256. -/
theorem sha256_mem_lt (msg : List ℕ) : ∀ b ∈ sha256 msg, b < 256 := by
  intro b hb
  simp only [sha256, List.mem_append] at hb
  rcases hb with ((((((h | h) | h) | h) | h) | h) | h) | h <;> exact wordBytes_mem_lt _ _ h

/-- The fallback embedding at the configured dimension is the componentwise
image of the digest. -/
theorem fallback_eq_map (text : String) :
    fallback_embedding text 32 = (sha256 (utf8Bytes text)).map embComp := by
  have hlen : (sha256 (utf8Bytes text)).length = 32 := sha256_length _
  apply List.ext_get
  · simp [fallback_embedding, hlen]
  · intro i h1 h2
    have hi : i < 32 := by simpa [fallback_embedding] using h1
    simp only [fallback_embedding, List.get_eq_getElem, List.getElem_map, List.getElem_range]
    have him : i % (sha256 (utf8Bytes text)).length = i := by
      rw [hlen]
      exact Nat.mod_eq_of_lt hi
    rw [him, List.getD_eq_getElem _ _ (by rw [hlen]; exact hi), embComp]

/-- The rational dot product of two fallback embeddings through `intDot`. -/
theorem dotQ_map_embComp : ∀ xs ys : List ℕ,
    dotQ (xs.map embComp) (ys.map embComp) = (intDot xs ys : ℚ) / 65025
  | [], ys => by simp [dotQ, intDot]
  | x :: xs, [] => by simp [dotQ, intDot]
  | x :: xs, y :: ys => by
    have ih := dotQ_map_embComp xs ys
    simp only [dotQ, intDot, List.map_cons, List.zip_cons_cons, List.sum_cons] at ih ⊢
    rw [ih]
    simp only [embComp, byteScore]
    push_cast
    ring

theorem sumSq_eq_dotQ_self : ∀ a : List ℚ, sumSq a = dotQ a a
  | [] => rfl
  | x :: xs => by
    have ih := sumSq_eq_dotQ_self xs
    simp only [sumSq, dotQ, List.map_cons, List.zip_cons_cons, List.sum_cons] at ih ⊢
    rw [ih]

theorem sumSq_nonneg (a : List ℚ) : 0 ≤ sumSq a := by
  induction a with
  | nil => simp [sumSq]
  | cons x xs ih =>
    simp only [sumSq, List.map_cons, List.sum_cons] at ih ⊢
    exact add_nonneg (mul_self_nonneg x) ih

theorem magnitude_nonneg (a : List ℚ) : 0 ≤ magnitude a := Real.sqrt_nonneg _

theorem magnitude_eq_zero (a : List ℚ) : magnitude a = 0 ↔ sumSq a = 0 := by
  rw [magnitude, Real.sqrt_eq_zero']
  constructor
  · intro h
    have h2 : ((0 : ℚ) : ℝ) ≤ ((sumSq a : ℚ) : ℝ) := by exact_mod_cast sumSq_nonneg a
    have h3 : ((sumSq a : ℚ) : ℝ) = 0 := le_antisymm h (by simpa using h2)
    exact_mod_cast h3
  · intro h
    rw [h]
    simp

/-- The quadratic form `|t·a + b|²` expanded, hence nonnegative. -/
theorem embQuad_nonneg : ∀ (a b : List ℚ) (t : ℚ),
    0 ≤ sumSq a * t ^ 2 + 2 * dotQ a b * t + sumSq b
  | [], b, t => by
    have hb := sumSq_nonneg b
    simp only [sumSq, dotQ, List.map_nil, List.sum_nil, List.zip_nil_left] at hb ⊢
    nlinarith [hb]
  | x :: xs, [], t => by
    have ha := sumSq_nonneg (x :: xs)
    simp only [sumSq, dotQ, List.zip_nil_right, List.map_nil, List.sum_nil] at ha ⊢
    nlinarith [ha, sq_nonneg t]
  | x :: xs, y :: ys, t => by
    have ih := embQuad_nonneg xs ys t
    have hsq : 0 ≤ (x * t + y) ^ 2 := sq_nonneg _
    simp only [sumSq, dotQ, List.map_cons, List.zip_cons_cons, List.sum_cons] at ih ⊢
    nlinarith [ih, hsq]

/-- Cauchy–Schwarz for the list dot product. -/
theorem dotQ_sq_le (a b : List ℚ) : dotQ a b ^ 2 ≤ sumSq a * sumSq b := by
  by_cases hA : sumSq a = 0
  · by_cases hd : dotQ a b = 0
    · rw [hd, hA]
      simp
    · exfalso
      have h := embQuad_nonneg a b (-(sumSq b + 1) / (2 * dotQ a b))
      rw [hA] at h
      have h2 : 2 * dotQ a b * (-(sumSq b + 1) / (2 * dotQ a b)) = -(sumSq b + 1) := by
        field_simp
      rw [zero_mul, zero_add, h2] at h
      linarith
  · have hApos : 0 < sumSq a := lt_of_le_of_ne (sumSq_nonneg a) (Ne.symm hA)
    have h := embQuad_nonneg a b (-(dotQ a b) / sumSq a)
    have hx : sumSq a * (-(dotQ a b) / sumSq a) = -(dotQ a b) := by
      field_simp
      ring
    have h2 : 0 ≤ (sumSq a * (-(dotQ a b) / sumSq a)) ^ 2 +
        2 * dotQ a b * (sumSq a * (-(dotQ a b) / sumSq a)) + sumSq a * sumSq b := by
      have e1 : (sumSq a * (-(dotQ a b) / sumSq a)) ^ 2 +
          2 * dotQ a b * (sumSq a * (-(dotQ a b) / sumSq a)) + sumSq a * sumSq b =
          sumSq a * (sumSq a * (-(dotQ a b) / sumSq a) ^ 2 +
            2 * dotQ a b * (-(dotQ a b) / sumSq a) + sumSq b) := by
        ring
      rw [e1]
      exact mul_nonneg hApos.le h
    rw [hx] at h2
    nlinarith [h2]

/-- Cosine similarity always lies in `[-1, 1]`. -/
theorem cosine_similarity_bounds (a b : List ℚ) :
    -1 ≤ cosine_similarity a b ∧ cosine_similarity a b ≤ 1 := by
  by_cases h : magnitude a = 0 ∨ magnitude b = 0
  · rw [cosine_similarity, if_pos h]
    norm_num
  · rw [cosine_similarity, if_neg h]
    push_neg at h
    have hsa : 0 < magnitude a := lt_of_le_of_ne (magnitude_nonneg a) (Ne.symm h.1)
    have hsb : 0 < magnitude b := lt_of_le_of_ne (magnitude_nonneg b) (Ne.symm h.2)
    have hA0 : (0 : ℝ) ≤ ((sumSq a : ℚ) : ℝ) := by exact_mod_cast sumSq_nonneg a
    have hB0 : (0 : ℝ) ≤ ((sumSq b : ℚ) : ℝ) := by exact_mod_cast sumSq_nonneg b
    have hmul : magnitude a * magnitude b =
        Real.sqrt (((sumSq a : ℚ) : ℝ) * ((sumSq b : ℚ) : ℝ)) := by
      rw [magnitude, magnitude, Real.sqrt_mul hA0]
    have hcs : ((dotQ a b : ℚ) : ℝ) ^ 2 ≤ ((sumSq a : ℚ) : ℝ) * ((sumSq b : ℚ) : ℝ) := by
      exact_mod_cast dotQ_sq_le a b
    have key : |((dotQ a b : ℚ) : ℝ)| ≤ magnitude a * magnitude b := by
      rw [hmul]
      calc |((dotQ a b : ℚ) : ℝ)| = Real.sqrt (((dotQ a b : ℚ) : ℝ) ^ 2) :=
        (Real.sqrt_sq_eq_abs _).symm
      _ ≤ Real.sqrt (((sumSq a : ℚ) : ℝ) * ((sumSq b : ℚ) : ℝ)) := Real.sqrt_le_sqrt hcs
    have hpos : 0 < magnitude a * magnitude b := mul_pos hsa hsb
    have habs : |((dotQ a b : ℚ) : ℝ) / (magnitude a * magnitude b)| ≤ 1 := by
      rw [abs_div, abs_of_pos hpos]
      exact (div_le_one hpos).mpr key
    exact abs_le.mp habs

theorem round4_mono {x y : ℝ} (h : x ≤ y) : round4 x ≤ round4 y := by
  unfold round4
  have h1 : round (x * 10000) ≤ round (y * 10000) := by
    rw [round_eq, round_eq]
    exact Int.floor_mono (by linarith)
  have h2 : ((round (x * 10000) : ℤ) : ℝ) ≤ ((round (y * 10000) : ℤ) : ℝ) := by exact_mod_cast h1
  exact (div_le_div_iff_of_pos_right (by norm_num)).mpr h2

/-- Exact multiples of `1/10⁴` are fixed points of `round4`. -/
theorem round4_intDiv (k : ℤ) : round4 ((k : ℝ) / 10000) = (k : ℝ) / 10000 := by
  unfold round4
  rw [div_mul_cancel₀ _ (by norm_num : (10000 : ℝ) ≠ 0), round_intCast]

theorem round4_le_intDiv {x : ℝ} {k : ℤ} (h : x ≤ (k : ℝ) / 10000) :
    round4 x ≤ (k : ℝ) / 10000 := by
  rw [← round4_intDiv k]
  exact round4_mono h

theorem round4_ge_intDiv {x : ℝ} {k : ℤ} (h : (k : ℝ) / 10000 ≤ x) :
    (k : ℝ) / 10000 ≤ round4 x := by
  rw [← round4_intDiv k]
  exact round4_mono h

theorem round4_isInt (x : ℝ) : ∃ k : ℤ, round4 x = (k : ℝ) / 10000 :=
  ⟨round (x * 10000), rfl⟩

theorem round4_le_one {x : ℝ} (h : x ≤ 1) : round4 x ≤ 1 := by
  have h2 := @round4_le_intDiv x 10000 (by push_cast; linarith)
  push_cast at h2
  linarith

theorem round4_ge_neg_one {x : ℝ} (h : -1 ≤ x) : -1 ≤ round4 x := by
  have h2 := @round4_ge_intDiv x (-10000) (by push_cast; linarith)
  push_cast at h2
  linarith

theorem round4_nonneg {x : ℝ} (h : 0 ≤ x) : 0 ≤ round4 x := by
  have h2 := @round4_ge_intDiv x 0 (by push_cast; linarith)
  push_cast at h2
  linarith

theorem round4_ge_neg_fifth {x : ℝ} (h : -(1 / 5) ≤ x) : -(1 / 5) ≤ round4 x := by
  have h2 := @round4_ge_intDiv x (-2000) (by push_cast; linarith)
  push_cast at h2
  linarith

/-- Any member of a `query` result is a scored stored row. -/
theorem collQuery_mem {rows : List Row} {q : List ℚ} {n : ℕ} {e : ScoredRow}
    (h : e ∈ collQuery rows q n) :
    ∃ row ∈ rows, e = ⟨row.id, row.document, round4 (cosine_similarity q row.embedding)⟩ := by
  simp only [collQuery] at h
  have h1 := List.mem_of_mem_take h
  rw [List.mem_insertionSort] at h1
  obtain ⟨row, hrow, he⟩ := List.mem_map.mp h1
  exact ⟨row, hrow, he.symm⟩

/-- The string sort used by the skill functions produces an ascending list. -/
theorem insertionSort_strLeB_sorted (l : List String) :
    (List.insertionSort (fun a b => strLeB a b = true) l).Pairwise (· ≤ ·) := by
  haveI : IsTotal String (fun a b => strLeB a b = true) := ⟨strLeB_total⟩
  haveI : IsTrans String (fun a b => strLeB a b = true) := ⟨fun a b c => strLeB_trans⟩
  exact (List.sorted_insertionSort _ l).imp fun h => (strLeB_iff_le _ _).mp h

theorem sortedUnion_sorted (xs ys : List String) : (sortedUnion xs ys).Pairwise (· ≤ ·) :=
  insertionSort_strLeB_sorted _

theorem sortedUnion_nodup (xs ys : List String) : (sortedUnion xs ys).Nodup :=
  ((List.perm_insertionSort _ _).nodup_iff).mpr (List.nodup_dedup _)

theorem sortedUnion_mem (xs ys : List String) (s : String) :
    s ∈ sortedUnion xs ys ↔ s ∈ xs ∨ s ∈ ys := by
  rw [sortedUnion, List.mem_insertionSort, List.mem_dedup, List.mem_append]

/-! ## Claims -/

/-- C4: `cosine_similarity` equals `dot/(|a|·|b|)` when both magnitudes are
nonzero, returns 0 whenever either magnitude is zero — in particular against
any zero vector — so the guarded division never divides by zero. -/
theorem c4_cosine_guard (a b : List ℚ) :
    (magnitude a = 0 ∨ magnitude b = 0 → cosine_similarity a b = 0) ∧
    (magnitude a ≠ 0 → magnitude b ≠ 0 →
      cosine_similarity a b = ((dotQ a b : ℚ) : ℝ) / (magnitude a * magnitude b)) ∧
    (∀ n : ℕ, cosine_similarity a (List.replicate n 0) = 0) := by
  refine ⟨fun h => by rw [cosine_similarity, if_pos h],
    fun h1 h2 => by rw [cosine_similarity, if_neg (by tauto)], fun n => ?_⟩
  have hz : magnitude (List.replicate n 0) = 0 := by
    rw [magnitude_eq_zero]
    simp [sumSq]
  rw [cosine_similarity, if_pos (Or.inr hz)]

/-- Witness for C4 at the concrete vectors `[0]` and `[1]`. -/
theorem c4_cosine_guard_witness :
    (magnitude [(0 : ℚ)] = 0 ∨ magnitude [(1 : ℚ)] = 0) ∧
    cosine_similarity [(0 : ℚ)] [(1 : ℚ)] = 0 ∧
    magnitude [(1 : ℚ)] ≠ 0 ∧
    cosine_similarity [(1 : ℚ)] [(1 : ℚ)] =
      ((dotQ [(1 : ℚ)] [(1 : ℚ)] : ℚ) : ℝ) / (magnitude [(1 : ℚ)] * magnitude [(1 : ℚ)]) := by
  have h0 : magnitude [(0 : ℚ)] = 0 := by
    rw [magnitude_eq_zero]
    norm_num [sumSq]
  have h1 : magnitude [(1 : ℚ)] ≠ 0 := by
    rw [Ne, magnitude_eq_zero]
    norm_num [sumSq]
  exact ⟨Or.inl h0, (c4_cosine_guard [(0 : ℚ)] [(1 : ℚ)]).1 (Or.inl h0), h1,
    (c4_cosine_guard [(1 : ℚ)] [(1 : ℚ)]).2.1 h1 h1⟩

/-- C7 counterexample: comparing a 2-dimensional embedding with a 1-dimensional
one raises no error condition — `cosine_similarity` silently computes `1`. -/
theorem c7_counterexample : cosine_similarity [(1 : ℚ), 0] [(1 : ℚ)] = 1 := by
  have hm1 : magnitude [(1 : ℚ), 0] = 1 := by
    have : sumSq [(1 : ℚ), 0] = 1 := by norm_num [sumSq]
    rw [magnitude, this]
    norm_num
  have hm2 : magnitude [(1 : ℚ)] = 1 := by
    have : sumSq [(1 : ℚ)] = 1 := by norm_num [sumSq]
    rw [magnitude, this]
    norm_num
  have hd : dotQ [(1 : ℚ), 0] [(1 : ℚ)] = 1 := by norm_num [dotQ]
  rw [cosine_similarity, if_neg (by rw [hm1, hm2]; norm_num), hd, hm1, hm2]
  norm_num

/-- C7 (amended): embeddings of differing lengths are not checked — the zip
silently truncates the dot product to the shorter vector while the magnitudes
use the full vectors, so padding the longer side with a zero never changes the
result and no error condition exists. -/
theorem c7_truncation (a b : List ℚ) (h : a.length ≤ b.length) :
    cosine_similarity a (b ++ [0]) = cosine_similarity a b ∧
    dotQ a (b ++ [0]) = dotQ a b := by
  have hdot : dotQ a (b ++ [0]) = dotQ a b := by
    rw [dotQ, dotQ, zip_append_of_le a b [0] h]
  have hsum : sumSq (b ++ [0]) = sumSq b := by
    simp [sumSq]
  have hmag : magnitude (b ++ [0]) = magnitude b := by
    rw [magnitude, magnitude, hsum]
  constructor
  · simp only [cosine_similarity, hdot, hmag]
  · exact hdot

/-- Witness for C7 (amended) at concrete vectors. -/
theorem c7_truncation_witness :
    ([(1 : ℚ)].length ≤ [(1 : ℚ)].length) ∧
    (cosine_similarity [(1 : ℚ)] ([(1 : ℚ)] ++ [0]) = cosine_similarity [(1 : ℚ)] [(1 : ℚ)] ∧
     dotQ [(1 : ℚ)] ([(1 : ℚ)] ++ [0]) = dotQ [(1 : ℚ)] [(1 : ℚ)]) :=
  ⟨by norm_num, c7_truncation _ _ (by norm_num)⟩

/-- The scanning loop of `_extract_experience_years` returns the value of the
first whitespace token that is all digits with value in `1..50`. -/
theorem extractExpLoop_eq_find : ∀ ts : List String,
    extractExpLoop ts = (ts.find? fun t =>
      pyIsDigit t && decide (1 ≤ digitsToNat t) && decide (digitsToNat t ≤ 50)).elim
        0 digitsToNat
  | [] => rfl
  | t :: ts => by
    have hp : (pyIsDigit t && decide (1 ≤ digitsToNat t) && decide (digitsToNat t ≤ 50)) = true ↔
        (pyIsDigit t = true ∧ 0 < digitsToNat t ∧ digitsToNat t < 51) := by
      simp only [Bool.and_eq_true, decide_eq_true_eq]
      constructor
      · rintro ⟨⟨h1, h2⟩, h3⟩
        exact ⟨h1, by omega, by omega⟩
      · rintro ⟨h1, h2, h3⟩
        exact ⟨⟨h1, by omega⟩, by omega⟩
    by_cases hcond : pyIsDigit t = true ∧ 0 < digitsToNat t ∧ digitsToNat t < 51
    · have hfind : List.find? (fun t => pyIsDigit t && decide (1 ≤ digitsToNat t) &&
          decide (digitsToNat t ≤ 50)) (t :: ts) = some t :=
        List.find?_cons_of_pos _ (hp.mpr hcond)
      rw [hfind]
      simp [extractExpLoop, hcond.1, hcond.2]
    · have hfind : List.find? (fun t => pyIsDigit t && decide (1 ≤ digitsToNat t) &&
          decide (digitsToNat t ≤ 50)) (t :: ts) = List.find? (fun t =>
            pyIsDigit t && decide (1 ≤ digitsToNat t) && decide (digitsToNat t ≤ 50)) ts :=
        List.find?_cons_of_neg _ (by rw [hp]; exact hcond)
      rw [hfind, ← extractExpLoop_eq_find ts]
      by_cases hd : pyIsDigit t = true
      · have hr : ¬(0 < digitsToNat t ∧ digitsToNat t < 51) := fun hr => hcond ⟨hd, hr⟩
        simp [extractExpLoop, hd, hr]
      · simp [extractExpLoop, hd]

/-- C8: `_extract_experience_years` scans the whitespace-delimited tokens in
order and returns the integer value of the first all-digit token with value in
`1..50`, or 0 if none exists; on the lowercased scenario-1 text it returns 5. -/
theorem c8_extract_experience (text : String) :
    extract_experience_years text = ((pySplitWS text).find? fun t =>
      pyIsDigit t && decide (1 ≤ digitsToNat t) && decide (digitsToNat t ≤ 50)).elim
        0 digitsToNat ∧
    extract_experience_years
      (pyLower "Python FastAPI engineer with 5 years experience in AWS") = 5 := by
  refine ⟨?_, by decide⟩
  rw [extract_experience_years, extractExpLoop_eq_find]

/-- C9: `_extract_skills` returns exactly the members of the fixed vocabulary
that occur as substrings of the text, sorted ascending; on the lowercased
scenario-1 text it returns `["aws", "fastapi", "python"]`. -/
theorem c9_extract_skills (text : String) :
    (extract_skills text).Pairwise (· ≤ ·) ∧
    (∀ s : String, s ∈ extract_skills text ↔
      s ∈ ["python", "fastapi", "django", "flask", "react", "next.js", "node", "aws",
        "postgresql", "docker", "kubernetes"] ∧ ∃ l r, text.toList = l ++ s.toList ++ r) ∧
    extract_skills (pyLower "Python FastAPI engineer with 5 years experience in AWS") =
      ["aws", "fastapi", "python"] := by
  refine ⟨insertionSort_strLeB_sorted _, fun s => ?_, by decide⟩
  rw [extract_skills, List.mem_insertionSort, List.mem_filter]
  constructor
  · rintro ⟨h1, h2⟩
    rw [skillMentioned] at h2
    exact ⟨h1, (hasSub_iff _ _).mp h2⟩
  · rintro ⟨h1, h2⟩
    exact ⟨h1, by rw [skillMentioned]; exact (hasSub_iff _ _).mpr h2⟩

/-- C2: `post_job` fails with the invalid-input condition when the description
is shorter than 10 characters, fails with the no-candidates condition when no
candidate has been ingested, and returns a ranked result list otherwise. -/
theorem c2_validation (st : AppState) (job : JobPost) :
    (job.description.length < 10 → post_job st job = .error .invalidInput) ∧
    (st.resume_metadata = [] → 10 ≤ job.description.length →
      post_job st job = .error .noCandidates) ∧
    (st.resume_metadata ≠ [] → 10 ≤ job.description.length →
      ∃ res, post_job st job = .ok res) := by
  refine ⟨fun h => by rw [post_job, if_pos h], fun hm hl => ?_, fun hm hl => ?_⟩
  · rw [post_job, if_neg (not_lt.mpr hl), if_pos (by simp [hm])]
  · rw [post_job, if_neg (not_lt.mpr hl), if_neg (by simpa using hm)]
    exact ⟨_, rfl⟩

/-- Witness for C2: scenario 2 of the specification (empty store), a too-short
description, and a successful call. -/
theorem c2_validation_witness :
    post_job initialState jobA = .error .noCandidates ∧
    post_job initialState ⟨"short", [], 0⟩ = .error .invalidInput ∧
    ∃ res, post_job stW jobA = .ok res :=
  ⟨(c2_validation initialState jobA).2.1 rfl (by decide),
   (c2_validation initialState ⟨"short", [], 0⟩).1 (by decide),
   (c2_validation stW jobA).2.2 (by decide) (by decide)⟩

open Classical in
/-- C3: the store query scores every stored row by cosine similarity rounded to
4 decimals, sorts descending by that score with ties kept in insertion order
(the sorted list restricted to any one score value is the original restriction),
and returns the first `top_n` entries. -/
theorem c3_query_ranking (rows : List Row) (q : List ℚ) (n : ℕ) :
    ∃ ranked : List ScoredRow,
      collQuery rows q n = ranked.take n ∧
      ranked.Perm (rows.map fun row =>
        ScoredRow.mk row.id row.document (round4 (cosine_similarity q row.embedding))) ∧
      ranked.Pairwise (fun x y => y.score ≤ x.score) ∧
      ∀ s : ℝ, (ranked.filter fun e => decide (e.score = s)) =
        ((rows.map fun row =>
          ScoredRow.mk row.id row.document (round4 (cosine_similarity q row.embedding))).filter
            fun e => decide (e.score = s)) := by
  haveI : IsTotal ScoredRow fun x y : ScoredRow => y.score ≤ x.score :=
    ⟨fun a b => le_total b.score a.score⟩
  haveI : IsTrans ScoredRow fun x y : ScoredRow => y.score ≤ x.score :=
    ⟨fun _ _ _ h1 h2 => le_trans h2 h1⟩
  refine ⟨List.insertionSort (fun x y : ScoredRow => y.score ≤ x.score)
      (rows.map fun row =>
        ScoredRow.mk row.id row.document (round4 (cosine_similarity q row.embedding))),
    ?_, List.perm_insertionSort _ _, List.sorted_insertionSort _ _, fun s => ?_⟩
  · rfl
  · refine insertionSort_filter _ _ (fun x y hx hy => ?_) _
    simp only [decide_eq_true_eq] at hx hy
    rw [hx, hy]

open Classical in
/-- C1: for a valid job and a non-empty candidate table, `post_job` prefilters
the top 10 candidates by semantic similarity, computes the experience, skill
and weighted final scores by the stated formulas, sorts the results stably by
final score descending (ties keep the prefilter order) and returns the first
five. -/
theorem c1_matcher_pipeline (st : AppState) (job : JobPost)
    (hdesc : 10 ≤ job.description.length) (hne : st.resume_metadata ≠ []) :
    ∃ scored ranked : List MatchEntry,
      scored = (collQuery st.resume_collection ((encode [job.description]).headD []) 10).map
        (fun result =>
          let candidate := st.resume_metadata.lookup result.id
          let cExp := (candidate.map CandidateMeta.experience_years).getD 0
          let experience_score : ℝ :=
            min ((cExp : ℝ) / ((max job.min_experience_years 1 : ℤ) : ℝ)) 1
          let required := (job.required_skills.map pyLower).toFinset
          let available := ((candidate.map CandidateMeta.skills).getD []).toFinset
          let skill_score : ℝ :=
            ((required ∩ available).card : ℝ) / ((max required.card 1 : ℕ) : ℝ)
          let final_score :=
            round4 (0.5 * skill_score + 0.3 * experience_score + 0.2 * result.score)
          MatchEntry.mk result.id ((candidate.map CandidateMeta.name).getD result.id)
            ((candidate.map CandidateMeta.headline).getD "Freelancer") result.score
            (round4 skill_score) (round4 experience_score) final_score) ∧
      post_job st job = .ok (ranked.take 5) ∧
      ranked.Perm scored ∧
      ranked.Pairwise (fun x y => y.final_score ≤ x.final_score) ∧
      ∀ s : ℝ, (ranked.filter fun e => decide (e.final_score = s)) =
        (scored.filter fun e => decide (e.final_score = s)) := by
  haveI : IsTotal MatchEntry fun x y : MatchEntry => y.final_score ≤ x.final_score :=
    ⟨fun a b => le_total b.final_score a.final_score⟩
  haveI : IsTrans MatchEntry fun x y : MatchEntry => y.final_score ≤ x.final_score :=
    ⟨fun _ _ _ h1 h2 => le_trans h2 h1⟩
  refine ⟨_, List.insertionSort (fun x y : MatchEntry => y.final_score ≤ x.final_score) _,
    rfl, ?_, List.perm_insertionSort _ _, List.sorted_insertionSort _ _, fun s => ?_⟩
  · rw [post_job, if_neg (not_lt.mpr hdesc), if_neg (by simpa using hne)]
  · refine insertionSort_filter _ _ (fun x y hx hy => ?_) _
    simp only [decide_eq_true_eq] at hx hy
    rw [hx, hy]

/-- Witness for C1 at a concrete one-candidate state and valid job. -/
theorem c1_matcher_pipeline_witness :
    10 ≤ jobW.description.length ∧ stW.resume_metadata ≠ [] ∧
    (∃ scored ranked : List MatchEntry,
      scored = (collQuery stW.resume_collection ((encode [jobW.description]).headD []) 10).map
        (fun result =>
          let candidate := stW.resume_metadata.lookup result.id
          let cExp := (candidate.map CandidateMeta.experience_years).getD 0
          let experience_score : ℝ :=
            min ((cExp : ℝ) / ((max jobW.min_experience_years 1 : ℤ) : ℝ)) 1
          let required := (jobW.required_skills.map pyLower).toFinset
          let available := ((candidate.map CandidateMeta.skills).getD []).toFinset
          let skill_score : ℝ :=
            ((required ∩ available).card : ℝ) / ((max required.card 1 : ℕ) : ℝ)
          let final_score :=
            round4 (0.5 * skill_score + 0.3 * experience_score + 0.2 * result.score)
          MatchEntry.mk result.id ((candidate.map CandidateMeta.name).getD result.id)
            ((candidate.map CandidateMeta.headline).getD "Freelancer") result.score
            (round4 skill_score) (round4 experience_score) final_score) ∧
      post_job stW jobW = .ok (ranked.take 5) ∧
      ranked.Perm scored ∧
      ranked.Pairwise (fun x y => y.final_score ≤ x.final_score) ∧
      ∀ s : ℝ, (ranked.filter fun e => decide (e.final_score = s)) =
        (scored.filter fun e => decide (e.final_score = s))) :=
  ⟨by decide, by decide, c1_matcher_pipeline stW jobW (by decide) (by decide)⟩

/-- C10: registration stores the maximum of the submitted and the extracted
experience years, and the sorted duplicate-free union of the typed
(comma-split, trimmed, lowercased, blanks dropped) and extracted skills. -/
theorem c10_register_merge (st : AppState) (rid nm email hl : String) (expY : ℤ)
    (skillsCsv bio content : String) (hs : (pyStrip content).isEmpty = false) :
    ∃ m : CandidateMeta,
      register_freelancer st rid nm email hl expY skillsCsv bio content =
        .ok ⟨collAdd st.resume_collection [pyStrip content]
          [(encode [pyStrip content]).headD []] [rid], (rid, m) :: st.resume_metadata⟩ ∧
      m.experience_years =
        max expY (extract_experience_years (pyLower (pyStrip content)) : ℤ) ∧
      m.skills.Pairwise (· ≤ ·) ∧ m.skills.Nodup ∧
      ∀ s : String, s ∈ m.skills ↔
        (s ∈ ((pySplitComma skillsCsv).filter fun sk => !(pyStrip sk).isEmpty).map
          (fun sk => pyLower (pyStrip sk)) ∨ s ∈ extract_skills (pyLower (pyStrip content))) := by
  have hc : content.isEmpty = false := by
    cases hcontent : content.isEmpty
    · rfl
    · rw [String.isEmpty_iff] at hcontent
      rw [hcontent] at hs
      exact absurd hs (by decide)
  refine ⟨⟨nm, email, hl, bio,
      max expY (extract_experience_years (pyLower (pyStrip content)) : ℤ),
      sortedUnion (((pySplitComma skillsCsv).filter fun sk => !(pyStrip sk).isEmpty).map
        fun sk => pyLower (pyStrip sk)) (extract_skills (pyLower (pyStrip content)))⟩,
    ?_, rfl, sortedUnion_sorted _ _, sortedUnion_nodup _ _, fun s => sortedUnion_mem _ _ s⟩
  rw [register_freelancer, if_neg (by simp [hc]), if_neg (by simp [hs])]

/-- Witness for C10 at concrete registration data. -/
theorem c10_register_merge_witness :
    (pyStrip "python dev").isEmpty = false ∧
    (∃ m : CandidateMeta,
      register_freelancer initialState "r9" "Ann" "a@b" "Dev" 2 "Go, SQL" "" "python dev" =
        .ok ⟨collAdd initialState.resume_collection [pyStrip "python dev"]
          [(encode [pyStrip "python dev"]).headD []] ["r9"],
          ("r9", m) :: initialState.resume_metadata⟩ ∧
      m.experience_years =
        max 2 (extract_experience_years (pyLower (pyStrip "python dev")) : ℤ) ∧
      m.skills.Pairwise (· ≤ ·) ∧ m.skills.Nodup ∧
      ∀ s : String, s ∈ m.skills ↔
        (s ∈ ((pySplitComma "Go, SQL").filter fun sk => !(pyStrip sk).isEmpty).map
          (fun sk => pyLower (pyStrip sk)) ∨
          s ∈ extract_skills (pyLower (pyStrip "python dev")))) :=
  ⟨by decide,
   c10_register_merge initialState "r9" "Ann" "a@b" "Dev" 2 "Go, SQL" "" "python dev" (by decide)⟩

/-- C5: the fallback embedding has exactly 32 components, and its i-th
component is `(byte_i / 255) * 2 - 1` for the i-th byte of the SHA-256 digest
of the UTF-8 encoded text, so every component lies in `[-1, 1]`; determinism
holds because the computation is a pure function of the text. -/
theorem c5_fallback_embedding (text : String) (i : ℕ) (hi : i < 32) :
    (fallback_embedding text 32).length = 32 ∧
    (fallback_embedding text 32).getD i 0 =
      (((sha256 (utf8Bytes text)).getD i 0 : ℚ) / 255) * 2 - 1 ∧
    -1 ≤ (fallback_embedding text 32).getD i 0 ∧ (fallback_embedding text 32).getD i 0 ≤ 1 := by
  have hdlen : (sha256 (utf8Bytes text)).length = 32 := sha256_length _
  have hmap := fallback_eq_map text
  have hlen32 : (fallback_embedding text 32).length = 32 := by
    rw [hmap, List.length_map, hdlen]
  have hcomp : (fallback_embedding text 32).getD i 0 =
      embComp ((sha256 (utf8Bytes text)).getD i 0) := by
    rw [hmap, List.getD_eq_getElem _ _ (by rw [List.length_map, hdlen]; exact hi),
      List.getElem_map, List.getD_eq_getElem _ _ (by rw [hdlen]; exact hi)]
  have hb : (sha256 (utf8Bytes text)).getD i 0 < 256 := by
    rw [List.getD_eq_getElem _ _ (by rw [hdlen]; exact hi)]
    exact sha256_mem_lt _ _ (List.getElem_mem _)
  have h0 : (0 : ℚ) ≤ ((sha256 (utf8Bytes text)).getD i 0 : ℚ) := Nat.cast_nonneg _
  have h255 : ((sha256 (utf8Bytes text)).getD i 0 : ℚ) ≤ 255 := by
    exact_mod_cast Nat.lt_succ_iff.mp hb
  refine ⟨hlen32, by rw [hcomp, embComp], ?_, ?_⟩
  · rw [hcomp, embComp]
    linarith
  · rw [hcomp, embComp]
    linarith

/-- C6 (amended): every match entry returned by `post_job` — for stores whose
records carry nonnegative experience years, as every ingestion path ensures —
has skill and experience scores in [0,1], a semantic score in [-1,1], a final
score in [-1/5, 1], and semantic and final scores that are exact integer
multiples of 1/10000 (rounded to 4 decimals). -/
theorem c6_score_ranges (st : AppState) (job : JobPost) (res : List MatchEntry)
    (e : MatchEntry) (hexp : ∀ p ∈ st.resume_metadata, 0 ≤ p.2.experience_years)
    (hres : post_job st job = .ok res) (he : e ∈ res) :
    (-1 ≤ e.semantic_score ∧ e.semantic_score ≤ 1) ∧
    (0 ≤ e.skill_score ∧ e.skill_score ≤ 1) ∧
    (0 ≤ e.experience_score ∧ e.experience_score ≤ 1) ∧
    (-(1 / 5) ≤ e.final_score ∧ e.final_score ≤ 1) ∧
    (∃ k : ℤ, e.semantic_score = (k : ℝ) / 10000) ∧
    (∃ k : ℤ, e.final_score = (k : ℝ) / 10000) := by
  rw [post_job] at hres
  by_cases h1 : job.description.length < 10
  · rw [if_pos h1] at hres
    exact absurd hres (by simp)
  rw [if_neg h1] at hres
  by_cases h2 : st.resume_metadata.isEmpty = true
  · rw [if_pos h2] at hres
    exact absurd hres (by simp)
  rw [if_neg h2] at hres
  have hX := Except.ok.inj hres
  subst hX
  have he1 := List.mem_of_mem_take he
  rw [List.mem_insertionSort] at he1
  obtain ⟨result, hresult, hfe⟩ := List.mem_map.mp he1
  obtain ⟨row, hrow, hrow_eq⟩ := collQuery_mem hresult
  set required := (job.required_skills.map pyLower).toFinset with hrequired
  set cand := List.lookup result.id st.resume_metadata with hcand
  set available := ((cand.map CandidateMeta.skills).getD []).toFinset with havail
  set cExp := (cand.map CandidateMeta.experience_years).getD 0 with hcExp
  set sraw : ℝ := ((required ∩ available).card : ℝ) / ((max required.card 1 : ℕ) : ℝ)
    with hsraw
  set eraw : ℝ := min ((cExp : ℝ) / ((max job.min_experience_years 1 : ℤ) : ℝ)) 1 with heraw
  have hsem : e.semantic_score = result.score := by rw [← hfe]
  have hskill : e.skill_score = round4 sraw := by rw [← hfe]
  have hexps : e.experience_score = round4 eraw := by rw [← hfe]
  have hfin : e.final_score = round4 (0.5 * sraw + 0.3 * eraw + 0.2 * result.score) := by
    rw [← hfe]
  have hsc : result.score =
      round4 (cosine_similarity ((encode [job.description]).headD []) row.embedding) := by
    rw [hrow_eq]
  have hcb := cosine_similarity_bounds ((encode [job.description]).headD []) row.embedding
  have hsem1 : -1 ≤ result.score := by
    rw [hsc]
    exact round4_ge_neg_one hcb.1
  have hsem2 : result.score ≤ 1 := by
    rw [hsc]
    exact round4_le_one hcb.2
  have hdenS : (0 : ℝ) < ((max required.card 1 : ℕ) : ℝ) := by
    exact_mod_cast lt_of_lt_of_le zero_lt_one (le_max_right _ 1)
  have hs0 : 0 ≤ sraw := by
    rw [hsraw]
    exact div_nonneg (Nat.cast_nonneg _) hdenS.le
  have hs1 : sraw ≤ 1 := by
    rw [hsraw, div_le_one hdenS]
    have hcard : (required ∩ available).card ≤ max required.card 1 :=
      le_trans (Finset.card_le_card Finset.inter_subset_left) (le_max_left _ _)
    exact_mod_cast hcard
  have hcexp0 : (0 : ℤ) ≤ cExp := by
    rw [hcExp]
    cases hc : cand with
    | none => simp
    | some c =>
      simp only [Option.map_some', Option.getD_some]
      obtain ⟨k', hk'⟩ := lookup_mem _ _ _ (hcand.symm.trans hc)
      exact hexp (k', c) hk'
  have hdenE : (0 : ℝ) < ((max job.min_experience_years 1 : ℤ) : ℝ) := by
    exact_mod_cast lt_of_lt_of_le zero_lt_one (le_max_right _ 1)
  have he0 : 0 ≤ eraw := by
    rw [heraw]
    exact le_min (div_nonneg (by exact_mod_cast hcexp0) hdenE.le) zero_le_one
  have he2 : eraw ≤ 1 := by
    rw [heraw]
    exact min_le_right _ _
  have harg1 : -(1 / 5) ≤ 0.5 * sraw + 0.3 * eraw + 0.2 * result.score := by
    nlinarith [hs0, he0, hsem1]
  have harg2 : 0.5 * sraw + 0.3 * eraw + 0.2 * result.score ≤ 1 := by
    nlinarith [hs1, he2, hsem2]
  refine ⟨⟨by rw [hsem]; exact hsem1, by rw [hsem]; exact hsem2⟩,
    ⟨by rw [hskill]; exact round4_nonneg hs0, by rw [hskill]; exact round4_le_one hs1⟩,
    ⟨by rw [hexps]; exact round4_nonneg he0, by rw [hexps]; exact round4_le_one he2⟩,
    ⟨by rw [hfin]; exact round4_ge_neg_fifth harg1, by rw [hfin]; exact round4_le_one harg2⟩,
    ?_, ?_⟩
  · rw [hsem, hsc]
    exact round4_isInt _
  · rw [hfin]
    exact round4_isInt _

/-- Evaluation of `post_job` on the one-candidate state with empty stored
embedding: the cosine guard yields semantic score 0, no required skills yield
skill score 0, and 3 years against a floor-1 requirement yield experience 1. -/
theorem post_job_stW : post_job stW jobW = .ok [entryW] := by
  have hz : magnitude [] = 0 := by
    rw [magnitude_eq_zero]
    rfl
  have hcos : cosine_similarity (fallback_embedding "0123456789" 32) [] = 0 := by
    rw [cosine_similarity, if_pos (Or.inr hz)]
  have hr40 : round4 0 = 0 := by
    rw [round4, zero_mul, round_zero]
    norm_num
  have hr41 : round4 1 = 1 := by
    rw [round4, one_mul, show ((10000 : ℝ)) = ((10000 : ℤ) : ℝ) by norm_num, round_intCast]
    norm_num
  rw [post_job, if_neg (by decide), if_neg (by decide)]
  simp only [stW, jobW, collQuery, encode, List.map_cons, List.map_nil, List.headD_cons,
    hcos, hr40, List.insertionSort, List.orderedInsert, List.take, List.lookup, entryW]
  norm_num [List.lookup, hr40, hr41, min_def, round4]

/-- Witness for C6 (amended) at the concrete state `stW` and job `jobW`. -/
theorem c6_score_ranges_witness :
    (∀ p ∈ stW.resume_metadata, 0 ≤ p.2.experience_years) ∧
    post_job stW jobW = .ok [entryW] ∧ entryW ∈ [entryW] ∧
    ((-1 ≤ entryW.semantic_score ∧ entryW.semantic_score ≤ 1) ∧
     (0 ≤ entryW.skill_score ∧ entryW.skill_score ≤ 1) ∧
     (0 ≤ entryW.experience_score ∧ entryW.experience_score ≤ 1) ∧
     (-(1 / 5) ≤ entryW.final_score ∧ entryW.final_score ≤ 1) ∧
     (∃ k : ℤ, entryW.semantic_score = (k : ℝ) / 10000) ∧
     (∃ k : ℤ, entryW.final_score = (k : ℝ) / 10000)) :=
  ⟨by decide, post_job_stW, List.mem_singleton.mpr rfl,
   c6_score_ranges stW jobW [entryW] entryW (by decide) post_job_stW
     (List.mem_singleton.mpr rfl)⟩

set_option maxRecDepth 1000000 in
/-- The exact dot product of the two counterexample embeddings. -/
theorem cx_dot : ((dotQ (fallback_embedding descCX 32) (fallback_embedding textA 32) : ℚ) : ℝ) =
    -271046 / 65025 := by
  rw [fallback_eq_map, fallback_eq_map, dotQ_map_embComp]
  have h : intDot (sha256 (utf8Bytes descCX)) (sha256 (utf8Bytes textA)) = -271046 := by decide
  rw [h]
  push_cast
  norm_num

set_option maxRecDepth 1000000 in
/-- The exact squared magnitude of the counterexample query embedding. -/
theorem cx_sumSq_q : ((sumSq (fallback_embedding descCX 32) : ℚ) : ℝ) = 971032 / 65025 := by
  rw [fallback_eq_map, sumSq_eq_dotQ_self, dotQ_map_embComp]
  have h : intDot (sha256 (utf8Bytes descCX)) (sha256 (utf8Bytes descCX)) = 971032 := by decide
  rw [h]
  push_cast
  norm_num

set_option maxRecDepth 1000000 in
/-- The exact squared magnitude of the counterexample stored embedding. -/
theorem cx_sumSq_v : ((sumSq (fallback_embedding textA 32) : ℚ) : ℝ) = 722784 / 65025 := by
  rw [fallback_eq_map, sumSq_eq_dotQ_self, dotQ_map_embComp]
  have h : intDot (sha256 (utf8Bytes textA)) (sha256 (utf8Bytes textA)) = 722784 := by decide
  rw [h]
  push_cast
  norm_num

/-- The rounded cosine similarity of the counterexample pair is at most `-1/4`. -/
theorem cx_cos_neg :
    round4 (cosine_similarity (fallback_embedding descCX 32) (fallback_embedding textA 32)) ≤
      -(1 / 4) := by
  have hApos : (0 : ℝ) < ((sumSq (fallback_embedding descCX 32) : ℚ) : ℝ) := by
    rw [cx_sumSq_q]
    norm_num
  have hBpos : (0 : ℝ) < ((sumSq (fallback_embedding textA 32) : ℚ) : ℝ) := by
    rw [cx_sumSq_v]
    norm_num
  have hma : 0 < magnitude (fallback_embedding descCX 32) := Real.sqrt_pos.mpr hApos
  have hmb : 0 < magnitude (fallback_embedding textA 32) := Real.sqrt_pos.mpr hBpos
  have hma4 : magnitude (fallback_embedding descCX 32) ≤ 4 := by
    rw [magnitude, cx_sumSq_q]
    calc Real.sqrt (971032 / 65025) ≤ Real.sqrt 16 := Real.sqrt_le_sqrt (by norm_num)
    _ = 4 := by
      rw [show (16 : ℝ) = 4 ^ 2 by norm_num, Real.sqrt_sq (by norm_num : (0 : ℝ) ≤ 4)]
  have hmb4 : magnitude (fallback_embedding textA 32) ≤ 4 := by
    rw [magnitude, cx_sumSq_v]
    calc Real.sqrt (722784 / 65025) ≤ Real.sqrt 16 := Real.sqrt_le_sqrt (by norm_num)
    _ = 4 := by
      rw [show (16 : ℝ) = 4 ^ 2 by norm_num, Real.sqrt_sq (by norm_num : (0 : ℝ) ≤ 4)]
  have hden_pos : 0 < magnitude (fallback_embedding descCX 32) *
      magnitude (fallback_embedding textA 32) := mul_pos hma hmb
  have hden16 : magnitude (fallback_embedding descCX 32) *
      magnitude (fallback_embedding textA 32) ≤ 16 := by nlinarith [hma.le, hmb.le]
  have hcos : cosine_similarity (fallback_embedding descCX 32) (fallback_embedding textA 32) =
      ((dotQ (fallback_embedding descCX 32) (fallback_embedding textA 32) : ℚ) : ℝ) /
        (magnitude (fallback_embedding descCX 32) * magnitude (fallback_embedding textA 32)) := by
    rw [cosine_similarity, if_neg]
    push_neg
    exact ⟨ne_of_gt hma, ne_of_gt hmb⟩
  have hnum : ((dotQ (fallback_embedding descCX 32) (fallback_embedding textA 32) : ℚ) : ℝ) ≤
      -4 := by
    rw [cx_dot]
    norm_num
  have hc : cosine_similarity (fallback_embedding descCX 32) (fallback_embedding textA 32) ≤
      -(1 / 4) := by
    rw [hcos, div_le_iff₀ hden_pos]
    nlinarith [hden16, hden_pos, hnum]
  have h2 := @round4_le_intDiv
    (cosine_similarity (fallback_embedding descCX 32) (fallback_embedding textA 32)) (-2500)
    (by push_cast; linarith)
  push_cast at h2
  linarith

/-- State `stCX` is reached by uploading the counterexample resume. -/
theorem upload_textA : upload_resume initialState "resume-1" "a.txt" textA = .ok stCX := by
  have h1 : pyStrip textA = textA := by decide
  have h2 : extract_experience_years (pyLower textA) = 0 := by decide
  have h3 : textA.isEmpty = false := by decide
  rw [upload_resume]
  simp only [h1, h3, Bool.false_eq_true, if_false, initialState, stCX, collAdd, encode,
    List.map_cons, List.map_nil, List.headD_cons, List.nil_append, List.zip_cons_cons,
    List.zip_nil_right, h2, Nat.cast_zero]

/-- Evaluation of `post_job` on the counterexample state. -/
theorem post_job_stCX : post_job stCX jobCX = .ok
    [⟨"resume-1", "a.txt", "Freelancer",
      round4 (cosine_similarity (fallback_embedding descCX 32) (fallback_embedding textA 32)),
      0, 0,
      round4 (0.2 * round4 (cosine_similarity (fallback_embedding descCX 32)
        (fallback_embedding textA 32)))⟩] := by
  have hr40 : round4 0 = 0 := by
    rw [round4, zero_mul, round_zero]
    norm_num
  rw [post_job, if_neg (by decide), if_neg (by decide)]
  simp only [stCX, jobCX, collQuery, encode, List.map_cons, List.map_nil, List.headD_cons,
    List.insertionSort, List.orderedInsert, List.take, List.lookup, hr40]
  norm_num [List.lookup, hr40, min_def, round4]

/-- C6 counterexample: after uploading the resume "Translator of classic
novels" into a fresh store, the job "Looking for cloud engineer" yields a
single match whose semantic score and final score are both negative, refuting
the claimed ranges `[0, 1]`. -/
theorem c6_counterexample :
    upload_resume initialState "resume-1" "a.txt" textA = .ok stCX ∧
    cxMatches.length = 1 ∧
    (cxMatches.headD mDefault).semantic_score < 0 ∧
    (cxMatches.headD mDefault).final_score < 0 := by
  have hcx : cxMatches = [⟨"resume-1", "a.txt", "Freelancer",
      round4 (cosine_similarity (fallback_embedding descCX 32) (fallback_embedding textA 32)),
      0, 0,
      round4 (0.2 * round4 (cosine_similarity (fallback_embedding descCX 32)
        (fallback_embedding textA 32)))⟩] := by
    rw [cxMatches, post_job_stCX]
    rfl
  have h1 := cx_cos_neg
  refine ⟨upload_textA, by rw [hcx]; rfl, ?_, ?_⟩
  · rw [hcx]
    show round4 (cosine_similarity (fallback_embedding descCX 32)
      (fallback_embedding textA 32)) < 0
    linarith
  · rw [hcx]
    show round4 (0.2 * round4 (cosine_similarity (fallback_embedding descCX 32)
      (fallback_embedding textA 32))) < 0
    have h2 : 0.2 * round4 (cosine_similarity (fallback_embedding descCX 32)
        (fallback_embedding textA 32)) ≤ -(1 / 20) := by linarith
    have h3 := @round4_le_intDiv (0.2 * round4 (cosine_similarity (fallback_embedding descCX 32)
        (fallback_embedding textA 32))) (-500) (by push_cast; linarith)
    push_cast at h3
    linarith

/-- Witness for C5 at a concrete text and index. -/
theorem c5_fallback_embedding_witness :
    (0 : ℕ) < 32 ∧
    ((fallback_embedding "abc" 32).length = 32 ∧
      (fallback_embedding "abc" 32).getD 0 0 =
        (((sha256 (utf8Bytes "abc")).getD 0 0 : ℚ) / 255) * 2 - 1 ∧
      -1 ≤ (fallback_embedding "abc" 32).getD 0 0 ∧ (fallback_embedding "abc" 32).getD 0 0 ≤ 1) :=
  ⟨by norm_num, c5_fallback_embedding "abc" 0 (by norm_num)⟩

end FAI
